import Mathlib

/-!
# find_mssing: content index and missing-file report

A shallow embedding of `src/main.go`.  The program walks directory trees, hashes
every file and reports the source files whose hash occurs in no destination.

* The filesystem is a finite tree (`Node`), the outcome of `os.Lstat`, `os.ReadDir`,
  `DirEntry.Info`, `os.Open` and `io.ReadAll` being recorded in the tree.
* `filepath.WalkDir` and `fmt.Sprintf` are embedded from the Go standard library
  (`WalkDir`, `walkDir`, `doPrintf`), as far as the program uses them.
* `filepath.Join`, by which the walk names the entries of a directory, is a
  parameter `join`; `Join` is the function of Unix systems, which cleans the
  path (`Join "src/" "b" = "src/b"`, `Join "." "b" = "b"`).
* `xxhash.Sum64` is a parameter `hash`: any fixed function of the file bytes.
* A Go `map[uint64]string` is an association list with one entry per key.
* `int64` arithmetic wraps on 64 bits (`add64`); a `float64` is the rational it
  stands for, and the map `sizeNames` is ranged over in an order given as argument.
* Printing (`fmt.Println`, `fmt.Fprintf(os.Stderr, ..)`) has no effect on the
  values computed and is left out.
-/

namespace FindMissing

set_option autoImplicit false

/-! ## Go values -/

/-- Two's complement reduction of an integer to the `int64` range. -/
def wrap64 (x : Int) : Int := (x + 2 ^ 63) % 2 ^ 64 - 2 ^ 63

/-- Go's `+` on `int64`. -/
def add64 (a b : Int) : Int := wrap64 (a + b)

/-- Lookup `m[k]` in a Go `map[uint64]string`, with the `ok` flag as `Option`. -/
def mapGet : List (Nat × String) → Nat → Option String
  | [], _ => none
  | (k', v) :: m, k => if k' = k then some v else mapGet m k

/-- Assignment `m[k] = v`: the entry of `k` is overwritten when there is one,
added otherwise. -/
def mapSet : List (Nat × String) → Nat → String → List (Nat × String)
  | [], k, v => [(k, v)]
  | (k', v') :: m, k, v => if k' = k then (k, v) :: m else (k', v') :: mapSet m k v

/-- The keys of a map. -/
def mapKeys (m : List (Nat × String)) : List Nat := m.map Prod.fst

/-! ## The filesystem -/

/-- The outcome of `os.Open(path)` followed by `io.ReadAll(f)`. -/
inductive ReadResult where
  | openErr
  | readErr
  | ok (data : List Nat)
  deriving DecidableEq

mutual
/-- A directory entry: a non-directory with the outcome of `d.Info()` (the size, or
`none` for an error) and of reading it, or a directory with the entries
`os.ReadDir` returned and whether it also returned an error. -/
inductive Node where
  | file (info : Option Int) (content : ReadResult)
  | dir (readDirErr : Bool) (entries : Entries)
/-- The entries of a directory, in the order `os.ReadDir` lists them. -/
inductive Entries where
  | nil
  | cons (name : String) (node : Node) (rest : Entries)
end

/-- The errors the program sees: the three `fmt.Errorf` of `addFile` and `walk`,
and the two `filepath.WalkDir` passes to its callback. -/
inductive GoError where
  | opening (path : String)
  | reading (path : String)
  | gettingInfo (path : String)
  | lstat (path : String)
  | readDir (path : String)
  deriving DecidableEq

/-! ### `filepath.Join`

The walk names an entry `filepath.Join(path, d1.Name())`.  In the walk, and in
every statement on it, that function is an argument `join`, so what is proved
holds of the join of every platform.  `Join` is the function of Unix systems
(`path/filepath/path.go`, `path_unix.go`), which cleans the path it builds; the
examples are run with it. -/

/-- The elements of a path, those between two separators `/`; `cur` is the
element being read, reversed. -/
def splitPath : List Char → List Char → List (List Char)
  | cur, [] => [cur.reverse]
  | cur, c :: cs => if c = '/' then cur.reverse :: splitPath [] cs else splitPath (c :: cur) cs

/-- The loop of `filepath.Clean` over the elements of a path; `out` is the
elements kept so far, last first.  An empty element and `.` are dropped; `..`
removes the element before it when there is one that is not `..`, is dropped at
the top of a rooted path and is kept otherwise. -/
def cleanElems (rooted : Bool) : List (List Char) → List (List Char) → List (List Char)
  | out, [] => out.reverse
  | out, e :: es =>
    if e = [] ∨ e = ['.'] then cleanElems rooted out es
    else if e = ['.', '.'] then
      match out with
      | [] => if rooted then cleanElems rooted [] es else cleanElems rooted [e] es
      | top :: rest =>
        if top = ['.', '.'] then cleanElems rooted (e :: out) es
        else cleanElems rooted rest es
    else cleanElems rooted (e :: out) es

/-- The function `filepath.Clean(path)` on a Unix system: the shortest path
that names the same file, `.` for an empty result. -/
def Clean (path : String) : String :=
  match path.data with
  | [] => "."
  | c :: cs =>
    let elems := cleanElems (c = '/') [] (splitPath [] (c :: cs))
    if c = '/' then String.mk ('/' :: List.intercalate ['/'] elems)
    else if elems = [] then "."
    else String.mk (List.intercalate ['/'] elems)

/-- The function `filepath.Join(path, name)` on a Unix system: the elements
from the first non-empty one on, joined by `/` and cleaned. -/
def Join (path name : String) : String :=
  if path ≠ "" then Clean (path ++ "/" ++ name)
  else if name ≠ "" then Clean name
  else ""

/-! ## `hashList` (main.go 31-81) -/

/-- The struct `hashList`: `files map[uint64]string` and `size int64`. -/
structure hashList where
  files : List (Nat × String)
  size : Int
  deriving DecidableEq

/-- What a call leaves behind: a nil dereference, or the receiver's new state
and the returned `error`. -/
inductive Outcome where
  | panic
  | ret (h : hashList) (err : Option GoError)
  deriving DecidableEq

/-- Method `func (h *hashList) addFile(path string) error` (main.go 36-50); `content`
is what opening and reading `path` yields. -/
def addFile (hash : List Nat → Nat) (h : hashList) (path : String)
    (content : ReadResult) : Outcome :=
  match content with
  | .openErr => .ret h (some (.opening path))
  | .readErr => .ret h (some (.reading path))
  | .ok data => .ret { h with files := mapSet h.files (hash data) path } none

/-- Method `func (h *hashList) walk(path string, d fs.DirEntry, e error) error`
(main.go 52-65).  `d = none` is the nil `DirEntry`; `e` is never looked at. -/
def walk (hash : List Nat → Nat) (h : hashList) (path : String) (d : Option Node)
    (_e : Option GoError) : Outcome :=
  match d with
  | none => .panic
  | some (.dir _ _) => .ret h none
  | some (.file info content) =>
    match info with
    | none => .ret h (some (.gettingInfo path))
    | some sz => addFile hash { h with size := add64 h.size sz } path content

mutual
/-- Function `walkDir` of Go's `path/filepath`: the callback on the entry, then on its
entries when it is a directory; the first error ends the walk.  (The callback
never returns `SkipDir` or `SkipAll`.) -/
def walkDir (hash : List Nat → Nat) (join : String → String → String) (h : hashList)
    (path : String) (d : Node) : Outcome :=
  match d with
  | .file info content => walk hash h path (some (.file info content)) none
  | .dir readDirErr entries =>
    match walk hash h path (some (.dir readDirErr entries)) none with
    | .ret h1 none =>
      if readDirErr then
        match walk hash h1 path (some (.dir readDirErr entries)) (some (.readDir path)) with
        | .ret h2 none => walkEntries hash join h2 path entries
        | out => out
      else walkEntries hash join h1 path entries
    | out => out
/-- The loop `for _, d1 := range dirs` of `walkDir`. -/
def walkEntries (hash : List Nat → Nat) (join : String → String → String) (h : hashList)
    (path : String) : Entries → Outcome
  | .nil => .ret h none
  | .cons name d1 rest =>
    match walkDir hash join h (join path name) d1 with
    | .ret h1 none => walkEntries hash join h1 path rest
    | out => out
end

/-- The call `filepath.WalkDir(root, hashes.walk)`: `fs root` is the outcome of
`os.Lstat(root)`, `none` when it fails. -/
def WalkDir (hash : List Nat → Nat) (join : String → String → String)
    (fs : String → Option Node) (h : hashList) (root : String) : Outcome :=
  match fs root with
  | none => walk hash h root none (some (.lstat root))
  | some d => walkDir hash join h root d

/-- The loop `for _, dir := range dirs` of `buildHashList` (main.go 73-78): the
error of a walk is printed and the next root is walked. -/
def buildLoop (hash : List Nat → Nat) (join : String → String → String)
    (fs : String → Option Node) :
    hashList → List String → Option hashList
  | h, [] => some h
  | h, dir :: dirs =>
    match WalkDir hash join fs h dir with
    | .panic => none
    | .ret h1 _ => buildLoop hash join fs h1 dirs

/-- Function `func buildHashList(dirs []string) hashList` (main.go 67-81); `none` when
the call panics. -/
def buildHashList (hash : List Nat → Nat) (join : String → String → String)
    (fs : String → Option Node)
    (dirs : List String) : Option hashList :=
  buildLoop hash join fs { files := [], size := 0 } dirs

/-! ## `main` (main.go 109-114) -/

/-- The loop that fills `missing`; `iter` is the sequence of entries
`range sources.files` yields, in the order the runtime picks. -/
def missingPaths (iter : List (Nat × String)) (dests : hashList) : List String :=
  iter.foldl
    (fun missing e => if (mapGet dests.files e.1).isSome then missing else missing ++ [e.2])
    []

/-- The `missing` slice of a run of `main` on `source` and `dests` (main.go 90,
92, 109-114); `range` is the order in which the runtime iterates over a map.
`none` when a call of `buildHashList` panics. -/
def mainMissing (hash : List Nat → Nat) (join : String → String → String)
    (fs : String → Option Node)
    (range : List (Nat × String) → List (Nat × String))
    (source : String) (dests : List String) : Option (List String) :=
  match buildHashList hash join fs [source], buildHashList hash join fs dests with
  | some sources, some dsts => some (missingPaths (range sources.files) dsts)
  | _, _ => none

/-! ## `fmt.Sprintf`

The part of `doPrintf` and `printArg` of Go's standard library (`fmt/print.go`)
the program uses: directives `%[flags][width][.precision]verb` (no `*`, no
argument index) applied to `float64` and `string` arguments.  After the flags,
the width and the precision, the next character of the format is the verb,
whatever it is; `printArg` hands a `float64` to `fmtFloat`, which knows the verbs
`v b g G x X f F e E` and calls `badVerb` on any other.  The digits a number is
rendered with are not computed: a formatted argument is kept as a `Piece`. -/

/-- An argument of `Sprintf`.  A `float64` is the rational it stands for (NaN
and the infinities are left out). -/
inductive Arg where
  | float (v : ℚ)
  | str (s : String)
  deriving DecidableEq

/-- Flags, width and precision of a directive. -/
structure Directive where
  flags : List Char
  width : Option Nat
  prec : Option Nat
  deriving DecidableEq

/-- A piece of the output of `Sprintf`. -/
inductive Piece where
  /-- Text copied from the format. -/
  | text (s : String)
  /-- An argument formatted by a verb its type accepts. -/
  | formatted (d : Directive) (verb : Char) (a : Arg)
  /-- The type of the argument, `%T`. -/
  | typeOf (a : Arg)
  /-- The text `%!verb(type=value)` of a verb the argument's type rejects. -/
  | badVerb (verb : Char) (a : Arg)
  /-- The text `%!verb(MISSING)` of a verb with no argument left. -/
  | missingArg (verb : Char)
  /-- The text `%!(NOVERB)` of a directive cut short by the end of the format. -/
  | noVerb
  /-- The text `%!(EXTRA ..)` listing the arguments no directive used. -/
  | extra (args : List Arg)
  deriving DecidableEq

/-- The verbs `printArg` accepts for a `float64` (`fmtFloat`) and for a `string`
(`fmtString`). -/
def goodVerb : Arg → Char → Bool
  | .float _, c => c ∈ ['v', 'b', 'g', 'G', 'x', 'X', 'f', 'F', 'e', 'E']
  | .str _, c => c ∈ ['v', 's', 'x', 'X', 'q']

/-- The `switch` over the verb at the end of a directive in `doPrintf`. -/
def printVerb (d : Directive) (verb : Char) (args : List Arg) : List Piece × List Arg :=
  if verb = '%' then ([.text "%"], args)
  else
    match args with
    | [] => ([.missingArg verb], [])
    | a :: rest =>
      if verb = 'T' then ([.typeOf a], rest)
      else if goodVerb a verb then ([.formatted d verb a], rest)
      else ([.badVerb verb a], rest)

/-- Where `doPrintf` is in the format: in plain text (the run copied so far,
reversed), or inside a directive after its flags, width digits or precision
digits. -/
inductive Scan where
  | plain (acc : List Char)
  | flags (fl : List Char)
  | width (fl : List Char) (w : Nat)
  | prec (fl : List Char) (w : Option Nat) (p : Nat)

/-- The run of plain text copied so far, as a piece. -/
def flush (acc : List Char) : List Piece :=
  if acc = [] then [] else [.text (String.mk acc.reverse)]

/-- The check for unused arguments at the end of `doPrintf`. -/
def extraArgs (args : List Arg) : List Piece :=
  if args = [] then [] else [.extra args]

/-- The value of a decimal digit. -/
def digitVal (c : Char) : Nat := c.toNat - '0'.toNat

/-- The main loop of `doPrintf`, one character of the format at a time. -/
def doPrintf : Scan → List Char → List Arg → List Piece
  | .plain acc, [], args => flush acc ++ extraArgs args
  | .plain acc, c :: cs, args =>
    if c = '%' then flush acc ++ doPrintf (.flags []) cs args
    else doPrintf (.plain (c :: acc)) cs args
  | .flags _, [], args => .noVerb :: extraArgs args
  | .flags fl, c :: cs, args =>
    if c ∈ ['#', '0', '+', '-', ' '] then doPrintf (.flags (fl ++ [c])) cs args
    else if c.isDigit then doPrintf (.width fl (digitVal c)) cs args
    else if c = '.' then doPrintf (.prec fl none 0) cs args
    else
      let r := printVerb ⟨fl, none, none⟩ c args
      r.1 ++ doPrintf (.plain []) cs r.2
  | .width _ _, [], args => .noVerb :: extraArgs args
  | .width fl w, c :: cs, args =>
    if c.isDigit then doPrintf (.width fl (10 * w + digitVal c)) cs args
    else if c = '.' then doPrintf (.prec fl (some w) 0) cs args
    else
      let r := printVerb ⟨fl, some w, none⟩ c args
      r.1 ++ doPrintf (.plain []) cs r.2
  | .prec _ _ _, [], args => .noVerb :: extraArgs args
  | .prec fl w p, c :: cs, args =>
    if c.isDigit then doPrintf (.prec fl w (10 * p + digitVal c)) cs args
    else
      let r := printVerb ⟨fl, w, some p⟩ c args
      r.1 ++ doPrintf (.plain []) cs r.2

/-- The call `fmt.Sprintf(format, args...)`. -/
def Sprintf (format : String) (args : List Arg) : List Piece :=
  doPrintf (.plain []) format.toList args

/-! ## `fileSize` (main.go 14-29) -/

/-- The table `var sizeNames = map[float64]string`, in the order of the source text. -/
def sizeNames : List (ℚ × String) :=
  [(1024 * 1024 * 1024 * 1024, "TiB"),
   (1024 * 1024 * 1024, "GiB"),
   (1024 * 1024, "MiB"),
   (1024, "KiB")]

/-- Function `func fileSize(s float64) string`; `order` is the sequence of entries
`range sizeNames` yields, in the order the runtime picks. -/
def fileSize (order : List (ℚ × String)) (s : ℚ) : List Piece :=
  match order with
  | [] => Sprintf "%0.0 B" [.float s]
  | (n, l) :: rest =>
    if s > n then Sprintf "%0.2f %s" [.float (s / n), .str l]
    else fileSize rest s

/-! ## Traversal order

The vocabulary of the properties: the entries of a tree in the order
`filepath.WalkDir` reaches them, the entries on which the callback returns an
error, and what the entries visited hold. -/

mutual
/-- The entries of a tree with their paths, depth first, an entry before what
is under it. -/
def traversal (join : String → String → String) (path : String) : Node → List (String × Node)
  | .file info content => [(path, .file info content)]
  | .dir readDirErr entries =>
    (path, .dir readDirErr entries) :: traversalEntries join path entries
/-- The traversal of the entries of the directory `path`, one after the other. -/
def traversalEntries (join : String → String → String) (path : String) :
    Entries → List (String × Node)
  | .nil => []
  | .cons name d1 rest => traversal join (join path name) d1 ++ traversalEntries join path rest
end

/-- The callback over a sequence of entries: each entry in turn from the state
the one before left, up to the first call that does not return nil. -/
def walkList (hash : List Nat → Nat) (h : hashList) : List (String × Node) → Outcome
  | [] => .ret h none
  | x :: xs =>
    match walk hash h x.1 (some x.2) none with
    | .ret h1 none => walkList hash h1 xs
    | out => out

/-- An entry that cannot be processed: a non-directory whose metadata cannot be
retrieved, or that cannot be opened or read. -/
def failing : Node → Bool
  | .dir _ _ => false
  | .file none _ => true
  | .file (some _) (.ok _) => false
  | .file (some _) _ => true

/-- The entries of a traversal up to the first failing one, included. -/
def visited : List (String × Node) → List (String × Node)
  | [] => []
  | x :: xs => if failing x.2 then [x] else x :: visited xs

/-- The entries under a root, none when the root cannot be stat'd. -/
def rootTraversal (join : String → String → String) (fs : String → Option Node)
    (root : String) : List (String × Node) :=
  match fs root with
  | none => []
  | some d => traversal join root d

/-- The entries a call `buildHashList(dirs)` visits, in the order it visits them. -/
def allVisited (join : String → String → String) (fs : String → Option Node)
    (dirs : List String) : List (String × Node) :=
  dirs.flatMap (fun root => visited (rootTraversal join fs root))

/-- The sizes of the files, among `xs`, whose metadata is retrieved. -/
def statSizes (xs : List (String × Node)) : List Int :=
  xs.filterMap (fun x =>
    match x.2 with
    | .file (some sz) _ => some sz
    | _ => none)

/-- The files, among `xs`, that are read: path and bytes. -/
def readFiles (xs : List (String × Node)) : List (String × List Nat) :=
  xs.filterMap (fun x =>
    match x.2 with
    | .file (some _) (.ok data) => some (x.1, data)
    | _ => none)

/-- The files under the roots `dirs`: path and bytes. -/
def treeFiles (join : String → String → String) (fs : String → Option Node)
    (dirs : List String) : List (String × List Nat) :=
  readFiles (dirs.flatMap (rootTraversal join fs))

/-- A scan without I/O error: every root can be stat'd and no entry under it
is failing. -/
def cleanScan (join : String → String → String) (fs : String → Option Node)
    (dirs : List String) : Prop :=
  ∀ root ∈ dirs, (fs root).isSome ∧ ∀ x ∈ rootTraversal join fs root, failing x.2 = false

/-! ## Example data -/

/-- A stand-in for the content hash. -/
def sampleHash (data : List Nat) : Nat :=
  data.foldl (fun acc b => (acc * 31 + b) % 2 ^ 64) 7

/-- In `src`, also reached as `src/`: two files of the same content `x` and one
of content `y`.  In `dst`: a copy of `y`.  In `bad`: a file that cannot be
opened, then a readable one.  No other root. -/
def sampleFs (root : String) : Option Node :=
  if root = "src" ∨ root = "src/" then
    some (.dir false
      (.cons "a" (.file (some 1) (.ok [120]))
        (.cons "b" (.file (some 1) (.ok [120]))
          (.cons "c" (.file (some 1) (.ok [121])) .nil))))
  else if root = "dst" then
    some (.dir false (.cons "k" (.file (some 1) (.ok [121])) .nil))
  else if root = "bad" then
    some (.dir false
      (.cons "a" (.file (some 5) .openErr)
        (.cons "b" (.file (some 3) (.ok [1, 2, 3])) .nil)))
  else none

/-! ## Auxiliary definitions for the proofs -/

/-- The state the callback leaves on an entry. -/
def visit (hash : List Nat → Nat) (h : hashList) (x : String × Node) : hashList :=
  match walk hash h x.1 (some x.2) none with
  | .ret h1 _ => h1
  | .panic => h

/-- The map after the assignments `m[hash(data)] = path` for a sequence of files. -/
def indexFiles (hash : List Nat → Nat) (m : List (Nat × String))
    (files : List (String × List Nat)) : List (Nat × String) :=
  files.foldl (fun m f => mapSet m (hash f.2) f.1) m

/-- The path of the last file of a sequence with hash `k`. -/
def lastPath (hash : List Nat → Nat) : List (String × List Nat) → Nat → Option String
  | [], _ => none
  | f :: files, k =>
    match lastPath hash files k with
    | some p => some p
    | none => if hash f.2 = k then some f.1 else none

/-! ## The join of Unix systems -/

theorem Join_cleans :
    Join "src" "b" = "src/b" ∧ Join "src/" "b" = "src/b" ∧ Join "." "b" = "b" ∧
      Join "./src" "b" = "src/b" ∧ Join "/" "b" = "/b" ∧ Join "a/.." "b" = "b" ∧
      Join ".." "b" = "../b" ∧ Join "" "b" = "b" := by
  decide

/-! ## Maps -/

theorem mapGet_mapSet (m : List (Nat × String)) (k : Nat) (v : String) (k' : Nat) :
    mapGet (mapSet m k v) k' = if k = k' then some v else mapGet m k' := by
  induction m with
  | nil => simp [mapSet, mapGet]
  | cons e m ih =>
    obtain ⟨k0, v0⟩ := e
    by_cases h0 : k0 = k
    · subst h0
      by_cases h1 : k0 = k' <;> simp [mapSet, mapGet, h1]
    · by_cases h1 : k0 = k'
      · subst h1
        have : ¬ k = k0 := fun h => h0 h.symm
        simp [mapSet, mapGet, h0, this]
      · simp [mapSet, mapGet, h0, h1, ih]

theorem mem_mapKeys_mapSet (m : List (Nat × String)) (k : Nat) (v : String) (k' : Nat) :
    k' ∈ mapKeys (mapSet m k v) ↔ k' = k ∨ k' ∈ mapKeys m := by
  induction m with
  | nil => simp [mapSet, mapKeys]
  | cons e m ih =>
    obtain ⟨k0, v0⟩ := e
    by_cases h0 : k0 = k
    · subst h0
      simp [mapSet, mapKeys]
    · have ih' : k' ∈ List.map Prod.fst (mapSet m k v) ↔
          k' = k ∨ k' ∈ List.map Prod.fst m := ih
      simp only [mapSet, mapKeys, h0, if_false, List.map_cons, List.mem_cons, ih']
      tauto

theorem nodup_mapKeys_mapSet (m : List (Nat × String)) (k : Nat) (v : String)
    (hm : (mapKeys m).Nodup) : (mapKeys (mapSet m k v)).Nodup := by
  induction m with
  | nil => simp [mapSet, mapKeys]
  | cons e m ih =>
    obtain ⟨k0, v0⟩ := e
    have hm' : k0 ∉ mapKeys m ∧ (mapKeys m).Nodup := by
      simpa [mapKeys] using hm
    by_cases h0 : k0 = k
    · subst h0
      simpa [mapSet, mapKeys] using hm
    · have hne : ¬ k0 ∈ mapKeys (mapSet m k v) := by
        rw [mem_mapKeys_mapSet]
        tauto
      have := ih hm'.2
      simp only [mapSet, h0, if_false]
      exact List.nodup_cons.mpr ⟨hne, this⟩

theorem mapGet_eq_none_iff (m : List (Nat × String)) (k : Nat) :
    mapGet m k = none ↔ k ∉ mapKeys m := by
  induction m with
  | nil => simp [mapGet, mapKeys]
  | cons e m ih =>
    obtain ⟨k0, v0⟩ := e
    have ih' : mapGet m k = none ↔ k ∉ List.map Prod.fst m := ih
    by_cases h0 : k0 = k
    · subst h0
      simp [mapGet, mapKeys]
    · have : ¬ k = k0 := fun h => h0 h.symm
      simp [mapGet, mapKeys, h0, this, ih']

theorem mapGet_of_mem (m : List (Nat × String)) (hm : (mapKeys m).Nodup)
    (k : Nat) (v : String) (hmem : (k, v) ∈ m) : mapGet m k = some v := by
  induction m with
  | nil => simp at hmem
  | cons e m ih =>
    obtain ⟨k0, v0⟩ := e
    have hm' : k0 ∉ mapKeys m ∧ (mapKeys m).Nodup := by
      simpa [mapKeys] using hm
    rcases List.mem_cons.mp hmem with heq | htail
    · cases heq
      simp [mapGet]
    · have hk : k ∈ mapKeys m := List.mem_map.mpr ⟨(k, v), htail, rfl⟩
      have h0 : ¬ k0 = k := fun h => hm'.1 (h ▸ hk)
      simp [mapGet, h0, ih hm'.2 htail]

theorem mem_of_mapGet (m : List (Nat × String)) (k : Nat) (v : String)
    (hget : mapGet m k = some v) : (k, v) ∈ m := by
  induction m with
  | nil => simp [mapGet] at hget
  | cons e m ih =>
    obtain ⟨k0, v0⟩ := e
    by_cases h0 : k0 = k
    · subst h0
      simp [mapGet] at hget
      simp [hget]
    · simp [mapGet, h0] at hget
      exact List.mem_cons_of_mem _ (ih hget)

/-! ## `int64` sums -/

theorem wrap64_add_wrap64 (u v : Int) : wrap64 (wrap64 u + v) = wrap64 (u + v) := by
  unfold wrap64
  have h : ((u + 2 ^ 63) % 2 ^ 64 - 2 ^ 63 + v + 2 ^ 63) = ((u + 2 ^ 63) % 2 ^ 64 + v) := by ring
  rw [h, Int.emod_add_emod]
  have h2 : u + 2 ^ 63 + v = u + v + 2 ^ 63 := by ring
  rw [h2]

theorem wrap64_of_range (x : Int) (hlo : -2 ^ 63 ≤ x) (hhi : x < 2 ^ 63) : wrap64 x = x := by
  unfold wrap64
  have h : (x + 2 ^ 63) % 2 ^ 64 = x + 2 ^ 63 := Int.emod_eq_of_lt (by linarith) (by linarith)
  rw [h]
  ring

theorem wrap64_idem (x : Int) : wrap64 (wrap64 x) = wrap64 x := by
  have := wrap64_add_wrap64 x 0
  simpa using this

theorem foldl_add64 (xs : List Int) (a : Int) (ha : wrap64 a = a) :
    xs.foldl add64 a = wrap64 (a + xs.sum) := by
  induction xs generalizing a with
  | nil => simp [ha]
  | cons x xs ih =>
    have hx : wrap64 (add64 a x) = add64 a x := wrap64_idem (a + x)
    rw [List.foldl_cons, ih (add64 a x) hx, List.sum_cons]
    unfold add64
    rw [wrap64_add_wrap64, add_assoc]

/-! ## The walk as a fold over the traversal -/

theorem walk_of_not_failing (hash : List Nat → Nat) (h : hashList) (p : String) (d : Node)
    (e : Option GoError) (hd : failing d = false) :
    walk hash h p (some d) e = .ret (visit hash h (p, d)) none := by
  cases d with
  | dir r es => simp [walk, visit]
  | file info content =>
    cases info with
    | none => simp [failing] at hd
    | some sz =>
      cases content with
      | openErr => simp [failing] at hd
      | readErr => simp [failing] at hd
      | ok data => simp [walk, visit, addFile]

theorem walk_of_failing (hash : List Nat → Nat) (h : hashList) (p : String) (d : Node)
    (e : Option GoError) (hd : failing d = true) :
    ∃ err, walk hash h p (some d) e = .ret (visit hash h (p, d)) (some err) := by
  cases d with
  | dir r es => simp [failing] at hd
  | file info content =>
    cases info with
    | none => exact ⟨.gettingInfo p, by simp [walk, visit]⟩
    | some sz =>
      cases content with
      | openErr => exact ⟨.opening p, by simp [walk, visit, addFile]⟩
      | readErr => exact ⟨.reading p, by simp [walk, visit, addFile]⟩
      | ok data => simp [failing] at hd

theorem walkList_append (hash : List Nat → Nat) (xs ys : List (String × Node)) (h : hashList) :
    walkList hash h (xs ++ ys) =
      match walkList hash h xs with
      | .ret h1 none => walkList hash h1 ys
      | out => out := by
  induction xs generalizing h with
  | nil => simp [walkList]
  | cons x xs ih =>
    simp only [List.cons_append, walkList]
    cases hw : walk hash h x.1 (some x.2) none with
    | panic => simp
    | ret h1 err =>
      cases err with
      | none => simpa using ih h1
      | some e => simp

theorem walkList_visited (hash : List Nat → Nat) (xs : List (String × Node)) (h : hashList) :
    ∃ err, walkList hash h xs = .ret ((visited xs).foldl (visit hash) h) err := by
  induction xs generalizing h with
  | nil => exact ⟨none, by simp [walkList, visited]⟩
  | cons x xs ih =>
    cases hx : failing x.2 with
    | true =>
      obtain ⟨err, hw⟩ := walk_of_failing hash h x.1 x.2 none hx
      exact ⟨some err, by simp [walkList, visited, hx, hw]⟩
    | false =>
      have hw := walk_of_not_failing hash h x.1 x.2 none hx
      obtain ⟨err, ih'⟩ := ih (visit hash h x)
      exact ⟨err, by simp [walkList, visited, hx, hw, ih']⟩

mutual
theorem walkDir_eq_walkList (hash : List Nat → Nat)
    (join : String → String → String) (path : String) :
    ∀ (d : Node) (h : hashList),
      walkDir hash join h path d = walkList hash h (traversal join path d)
  | .file info content, h => by
    simp only [walkDir, traversal, walkList]
    cases walk hash h path (some (.file info content)) none with
    | panic => rfl
    | ret h1 err => cases err <;> rfl
  | .dir r entries, h => by
    have ih := walkEntries_eq_walkList hash join path entries h
    cases r <;> simpa [walkDir, traversal, walkList, walk] using ih
theorem walkEntries_eq_walkList (hash : List Nat → Nat)
    (join : String → String → String) (path : String) :
    ∀ (es : Entries) (h : hashList),
      walkEntries hash join h path es = walkList hash h (traversalEntries join path es)
  | .nil, h => by simp [walkEntries, traversalEntries, walkList]
  | .cons name d1 rest, h => by
    have ih1 := walkDir_eq_walkList hash join (join path name) d1 h
    simp only [walkEntries, traversalEntries, walkList_append, ih1]
    cases walkList hash h (traversal join (join path name) d1) with
    | panic => rfl
    | ret h1 err =>
      cases err with
      | none => simpa using walkEntries_eq_walkList hash join path rest h1
      | some e => rfl
end

theorem WalkDir_of_root (hash : List Nat → Nat)
    (join : String → String → String) (fs : String → Option Node) (h : hashList)
    (root : String) (hroot : (fs root).isSome) :
    ∃ err, WalkDir hash join fs h root =
      .ret ((visited (rootTraversal join fs root)).foldl (visit hash) h) err := by
  obtain ⟨d, hd⟩ := Option.isSome_iff_exists.mp hroot
  obtain ⟨err, hw⟩ := walkList_visited hash (traversal join root d) h
  exact ⟨err, by simp [WalkDir, rootTraversal, hd, walkDir_eq_walkList, hw]⟩

theorem WalkDir_of_no_root (hash : List Nat → Nat)
    (join : String → String → String) (fs : String → Option Node) (h : hashList)
    (root : String) (hroot : fs root = none) : WalkDir hash join fs h root = .panic := by
  simp [WalkDir, hroot, walk]

theorem buildLoop_eq (hash : List Nat → Nat)
    (join : String → String → String) (fs : String → Option Node)
    (dirs : List String) (h : hashList) :
    buildLoop hash join fs h dirs =
      if dirs.all (fun root => (fs root).isSome) then
        some ((allVisited join fs dirs).foldl (visit hash) h)
      else none := by
  induction dirs generalizing h with
  | nil => simp [buildLoop, allVisited]
  | cons root dirs ih =>
    cases hroot : fs root with
    | none => simp [buildLoop, WalkDir_of_no_root hash join fs h root hroot, hroot]
    | some d =>
      have hsome : (fs root).isSome := by simp [hroot]
      obtain ⟨err, hw⟩ := WalkDir_of_root hash join fs h root hsome
      have hall : (fun r => (fs r).isSome) root = true := hsome
      simp only [buildLoop, hw, ih, List.all_cons, hall, Bool.true_and]
      simp [allVisited, List.foldl_append]

/-! ## What the visited entries leave in the index -/

theorem visit_files (hash : List Nat → Nat) (h : hashList) (x : String × Node) :
    (visit hash h x).files = indexFiles hash h.files (readFiles [x]) := by
  obtain ⟨p, d⟩ := x
  cases d with
  | dir r es => simp [visit, walk, readFiles, indexFiles]
  | file info content =>
    cases info with
    | none => simp [visit, walk, readFiles, indexFiles]
    | some sz => cases content <;> simp [visit, walk, addFile, readFiles, indexFiles]

theorem visit_size (hash : List Nat → Nat) (h : hashList) (x : String × Node) :
    (visit hash h x).size = (statSizes [x]).foldl add64 h.size := by
  obtain ⟨p, d⟩ := x
  cases d with
  | dir r es => simp [visit, walk, statSizes]
  | file info content =>
    cases info with
    | none => simp [visit, walk, statSizes]
    | some sz => cases content <;> simp [visit, walk, addFile, statSizes]

theorem readFiles_cons (x : String × Node) (xs : List (String × Node)) :
    readFiles (x :: xs) = readFiles [x] ++ readFiles xs := by
  unfold readFiles
  rw [← List.filterMap_append]
  rfl

theorem statSizes_cons (x : String × Node) (xs : List (String × Node)) :
    statSizes (x :: xs) = statSizes [x] ++ statSizes xs := by
  unfold statSizes
  rw [← List.filterMap_append]
  rfl

theorem foldl_visit_files (hash : List Nat → Nat) (xs : List (String × Node)) (h : hashList) :
    (xs.foldl (visit hash) h).files = indexFiles hash h.files (readFiles xs) := by
  induction xs generalizing h with
  | nil => simp [readFiles, indexFiles]
  | cons x xs ih =>
    rw [List.foldl_cons, ih, visit_files, readFiles_cons x xs]
    simp [indexFiles, List.foldl_append]

theorem foldl_visit_size (hash : List Nat → Nat) (xs : List (String × Node)) (h : hashList) :
    (xs.foldl (visit hash) h).size = (statSizes xs).foldl add64 h.size := by
  induction xs generalizing h with
  | nil => simp [statSizes]
  | cons x xs ih =>
    rw [List.foldl_cons, ih, visit_size, statSizes_cons x xs]
    simp [List.foldl_append]

theorem lastPath_eq_none_iff (hash : List Nat → Nat) (files : List (String × List Nat))
    (k : Nat) : lastPath hash files k = none ↔ ∀ f ∈ files, hash f.2 ≠ k := by
  induction files with
  | nil => simp [lastPath]
  | cons f files ih =>
    cases hl : lastPath hash files k with
    | some p =>
      have hne : ¬ ∀ f ∈ files, hash f.2 ≠ k := fun hall => by
        rw [ih.mpr hall] at hl
        cases hl
      simp only [lastPath, hl, List.mem_cons, forall_eq_or_imp]
      constructor
      · intro hcontra
        cases hcontra
      · intro hall
        exact absurd hall.2 hne
    | none =>
      have hall := ih.mp hl
      by_cases hf : hash f.2 = k
      · simp [lastPath, hl, hf]
      · simp only [lastPath, hl, hf, if_false, List.mem_cons, forall_eq_or_imp, true_iff]
        exact ⟨hf, hall⟩

theorem lastPath_eq_some_iff (hash : List Nat → Nat) (files : List (String × List Nat))
    (k : Nat) (p : String) :
    lastPath hash files k = some p ↔
      ∃ pre data post, files = pre ++ (p, data) :: post ∧ hash data = k ∧
        ∀ g ∈ post, hash g.2 ≠ k := by
  induction files with
  | nil => simp [lastPath]
  | cons f files ih =>
    constructor
    · intro hl
      cases hl' : lastPath hash files k with
      | some p' =>
        simp only [lastPath, hl'] at hl
        cases hl
        obtain ⟨pre, data, post, hfiles, hk, hpost⟩ := ih.mp hl'
        exact ⟨f :: pre, data, post, by simp [hfiles], hk, hpost⟩
      | none =>
        simp only [lastPath, hl'] at hl
        by_cases hf : hash f.2 = k
        · simp only [hf, if_true] at hl
          cases hl
          exact ⟨[], f.2, files, by simp, hf, (lastPath_eq_none_iff hash files k).mp hl'⟩
        · simp [hf] at hl
    · rintro ⟨pre, data, post, hfiles, hk, hpost⟩
      cases pre with
      | nil =>
        simp only [List.nil_append, List.cons.injEq] at hfiles
        obtain ⟨hf, hpost'⟩ := hfiles
        subst hpost'
        have hnone := (lastPath_eq_none_iff hash files k).mpr hpost
        simp [lastPath, hnone, hf, hk]
      | cons f' pre' =>
        simp only [List.cons_append, List.cons.injEq] at hfiles
        have hl := ih.mpr ⟨pre', data, post, hfiles.2, hk, hpost⟩
        simp [lastPath, hl]

theorem mapGet_indexFiles (hash : List Nat → Nat) (files : List (String × List Nat))
    (m : List (Nat × String)) (k : Nat) :
    mapGet (indexFiles hash m files) k =
      match lastPath hash files k with
      | some p => some p
      | none => mapGet m k := by
  induction files generalizing m with
  | nil => simp [indexFiles, lastPath]
  | cons f files ih =>
    have hstep : indexFiles hash m (f :: files) =
        indexFiles hash (mapSet m (hash f.2) f.1) files := rfl
    rw [hstep, ih, mapGet_mapSet]
    cases hl : lastPath hash files k with
    | some p => simp [lastPath, hl]
    | none => by_cases hf : hash f.2 = k <;> simp [lastPath, hl, hf]

theorem nodup_indexFiles (hash : List Nat → Nat) (files : List (String × List Nat))
    (m : List (Nat × String)) (hm : (mapKeys m).Nodup) :
    (mapKeys (indexFiles hash m files)).Nodup := by
  induction files generalizing m with
  | nil => simpa [indexFiles] using hm
  | cons f files ih => exact ih _ (nodup_mapKeys_mapSet m (hash f.2) f.1 hm)

theorem mem_mapKeys_indexFiles (hash : List Nat → Nat) (files : List (String × List Nat))
    (m : List (Nat × String)) (k : Nat) :
    k ∈ mapKeys (indexFiles hash m files) ↔
      k ∈ mapKeys m ∨ ∃ f ∈ files, hash f.2 = k := by
  induction files generalizing m with
  | nil => simp [indexFiles]
  | cons f files ih =>
    have hstep : indexFiles hash m (f :: files) =
        indexFiles hash (mapSet m (hash f.2) f.1) files := rfl
    rw [hstep, ih, mem_mapKeys_mapSet]
    simp only [List.mem_cons, exists_eq_or_imp]
    constructor
    · rintro ((h1 | h2) | h3)
      · exact Or.inr (Or.inl h1.symm)
      · exact Or.inl h2
      · exact Or.inr (Or.inr h3)
    · rintro (h1 | h2 | h3)
      · exact Or.inl (Or.inr h1)
      · exact Or.inl (Or.inl h2.symm)
      · exact Or.inr h3

/-! ## The returned index -/

theorem buildHashList_eq (hash : List Nat → Nat)
    (join : String → String → String) (fs : String → Option Node)
    (dirs : List String) :
    buildHashList hash join fs dirs =
      if dirs.all (fun root => (fs root).isSome) then
        some ⟨indexFiles hash [] (readFiles (allVisited join fs dirs)),
          wrap64 (statSizes (allVisited join fs dirs)).sum⟩
      else none := by
  unfold buildHashList
  rw [buildLoop_eq]
  have hsize := foldl_visit_size hash (allVisited join fs dirs) ⟨[], 0⟩
  have hfiles := foldl_visit_files hash (allVisited join fs dirs) ⟨[], 0⟩
  rw [foldl_add64 _ 0 (by decide)] at hsize
  simp only [zero_add] at hsize hfiles
  have hstate : (allVisited join fs dirs).foldl (visit hash) ⟨[], 0⟩ =
      ⟨indexFiles hash [] (readFiles (allVisited join fs dirs)),
        wrap64 (statSizes (allVisited join fs dirs)).sum⟩ := by
    rw [← hsize, ← hfiles]
  rw [hstate]

theorem buildHashList_of_roots (hash : List Nat → Nat)
    (join : String → String → String) (fs : String → Option Node)
    (dirs : List String) (hroots : ∀ root ∈ dirs, (fs root).isSome) :
    buildHashList hash join fs dirs =
      some ⟨indexFiles hash [] (readFiles (allVisited join fs dirs)),
        wrap64 (statSizes (allVisited join fs dirs)).sum⟩ := by
  rw [buildHashList_eq, if_pos (List.all_eq_true.mpr hroots)]

theorem roots_of_buildHashList (hash : List Nat → Nat)
    (join : String → String → String) (fs : String → Option Node)
    (dirs : List String) (r : hashList) (hr : buildHashList hash join fs dirs = some r) :
    ∀ root ∈ dirs, (fs root).isSome := by
  rw [buildHashList_eq] at hr
  by_cases hall : dirs.all (fun root => (fs root).isSome) = true
  · exact List.all_eq_true.mp hall
  · rw [if_neg hall] at hr
    cases hr

theorem visited_of_not_failing (xs : List (String × Node))
    (hxs : ∀ x ∈ xs, failing x.2 = false) : visited xs = xs := by
  induction xs with
  | nil => rfl
  | cons x xs ih =>
    have hx := hxs x (List.mem_cons_self _ _)
    simp [visited, hx, ih (fun y hy => hxs y (List.mem_cons_of_mem _ hy))]

theorem mem_visited_iff (xs : List (String × Node)) (x : String × Node) :
    x ∈ visited xs ↔
      ∃ pre post, xs = pre ++ x :: post ∧ ∀ y ∈ pre, failing y.2 = false := by
  induction xs with
  | nil => simp [visited]
  | cons y ys ih =>
    cases hy : failing y.2 with
    | true =>
      simp only [visited, hy, if_true, List.mem_singleton]
      constructor
      · intro hxy
        subst hxy
        exact ⟨[], ys, rfl, by simp⟩
      · rintro ⟨pre, post, heq, hpre⟩
        cases pre with
        | nil =>
          simp only [List.nil_append, List.cons.injEq] at heq
          exact heq.1.symm
        | cons z pre' =>
          simp only [List.cons_append, List.cons.injEq] at heq
          have hz := hpre z (List.mem_cons_self _ _)
          rw [← heq.1, hy] at hz
          cases hz
    | false =>
      simp only [visited, hy, Bool.false_eq_true, if_false, List.mem_cons, ih]
      constructor
      · rintro (hxy | ⟨pre, post, heq, hpre⟩)
        · subst hxy
          exact ⟨[], ys, rfl, by simp⟩
        · refine ⟨y :: pre, post, by simp [heq], ?_⟩
          intro z hz
          rcases List.mem_cons.mp hz with hzy | hz'
          · rw [hzy]
            exact hy
          · exact hpre z hz'
      · rintro ⟨pre, post, heq, hpre⟩
        cases pre with
        | nil =>
          simp only [List.nil_append, List.cons.injEq] at heq
          exact Or.inl heq.1.symm
        | cons z pre' =>
          simp only [List.cons_append, List.cons.injEq] at heq
          exact Or.inr ⟨pre', post, heq.2, fun w hw => hpre w (List.mem_cons_of_mem _ hw)⟩

theorem allVisited_of_clean (join : String → String → String)
    (fs : String → Option Node) (dirs : List String)
    (hclean : cleanScan join fs dirs) :
    allVisited join fs dirs = dirs.flatMap (rootTraversal join fs) := by
  induction dirs with
  | nil => rfl
  | cons root dirs ih =>
    have hroot := (hclean root (List.mem_cons_self _ _)).2
    have htail : cleanScan join fs dirs := fun r hr => hclean r (List.mem_cons_of_mem _ hr)
    have ih' := ih htail
    unfold allVisited at ih' ⊢
    rw [List.flatMap_cons, List.flatMap_cons, ih', visited_of_not_failing _ hroot]

theorem roots_of_clean (join : String → String → String)
    (fs : String → Option Node) (dirs : List String)
    (hclean : cleanScan join fs dirs) : ∀ root ∈ dirs, (fs root).isSome :=
  fun root hroot => (hclean root hroot).1

theorem mem_readFiles_iff (xs : List (String × Node)) (p : String) (data : List Nat) :
    (p, data) ∈ readFiles xs ↔ ∃ sz, (p, Node.file (some sz) (.ok data)) ∈ xs := by
  unfold readFiles
  rw [List.mem_filterMap]
  constructor
  · rintro ⟨⟨q, d⟩, hmem, hsome⟩
    cases d with
    | dir r es => simp at hsome
    | file info content =>
      cases info with
      | none => simp at hsome
      | some sz =>
        cases content with
        | openErr => simp at hsome
        | readErr => simp at hsome
        | ok data' =>
          simp only [Option.some.injEq, Prod.mk.injEq] at hsome
          obtain ⟨hq, hdata⟩ := hsome
          subst hq
          subst hdata
          exact ⟨sz, hmem⟩
  · rintro ⟨sz, hmem⟩
    exact ⟨(p, Node.file (some sz) (.ok data)), hmem, rfl⟩

/-! ## The missing list -/

theorem foldl_missing (D : hashList) (iter : List (Nat × String)) (acc : List String) :
    iter.foldl
        (fun missing e => if (mapGet D.files e.1).isSome then missing else missing ++ [e.2])
        acc =
      acc ++ (iter.filter (fun e => (mapGet D.files e.1).isNone)).map Prod.snd := by
  induction iter generalizing acc with
  | nil => simp
  | cons e iter ih =>
    rw [List.foldl_cons, ih]
    cases hget : mapGet D.files e.1 <;> simp [List.filter_cons, hget]

theorem missingPaths_eq (D : hashList) (iter : List (Nat × String)) :
    missingPaths iter D = (iter.filter (fun e => (mapGet D.files e.1).isNone)).map Prod.snd := by
  simp [missingPaths, foldl_missing]

theorem mem_missingPaths (D : hashList) (S iter : List (Nat × String))
    (hS : (mapKeys S).Nodup) (hiter : iter.Perm S) (p : String) :
    p ∈ missingPaths iter D ↔ ∃ k, mapGet S k = some p ∧ mapGet D.files k = none := by
  rw [missingPaths_eq]
  simp only [List.mem_map, List.mem_filter, Option.isNone_iff_eq_none]
  constructor
  · rintro ⟨⟨k, v⟩, ⟨hmem, hnone⟩, hv⟩
    simp only at hv hnone
    subst hv
    exact ⟨k, mapGet_of_mem S hS k v (hiter.mem_iff.mp hmem), hnone⟩
  · rintro ⟨k, hget, hnone⟩
    exact ⟨(k, p), ⟨hiter.mem_iff.mpr (mem_of_mapGet S k p hget), hnone⟩, rfl⟩

/-- C1: the missing list computed in `main` holds, up to order, exactly the
paths `S[h]` of the hashes `h` that are keys of the source index `S` and not
keys of the destination index `D`, one occurrence for each such hash, whatever
the order `iter` in which the runtime ranges over `S`. -/
theorem missing_is_source_minus_dest (S : List (Nat × String)) (D : hashList)
    (iter : List (Nat × String)) (hS : (mapKeys S).Nodup) (hiter : iter.Perm S) :
    (missingPaths iter D).Perm
        (((mapKeys S).filter (fun h => h ∉ mapKeys D.files)).filterMap (mapGet S)) ∧
      ∀ p, p ∈ missingPaths iter D ↔
        ∃ h, h ∈ mapKeys S ∧ h ∉ mapKeys D.files ∧ mapGet S h = some p := by
  constructor
  · rw [missingPaths_eq]
    have h1 : ((iter.filter (fun e => (mapGet D.files e.1).isNone)).map Prod.snd).Perm
        ((S.filter (fun e => (mapGet D.files e.1).isNone)).map Prod.snd) :=
      (hiter.filter _).map _
    have h2 : ((mapKeys S).filter (fun h => h ∉ mapKeys D.files)).filterMap (mapGet S) =
        (S.filter (fun e => (mapGet D.files e.1).isNone)).map Prod.snd := by
      unfold mapKeys
      rw [List.filter_map, List.filterMap_map]
      have hfilter :
          List.filter ((fun h => decide (h ∉ List.map Prod.fst D.files)) ∘ Prod.fst) S =
          List.filter (fun e => (mapGet D.files e.1).isNone) S := by
        apply List.filter_congr
        intro e _
        have := mapGet_eq_none_iff D.files e.1
        unfold mapKeys at this
        cases hget : mapGet D.files e.1 with
        | none => simpa using this.mp hget
        | some v =>
          have hin : e.1 ∈ List.map Prod.fst D.files := by
            by_contra hcon
            rw [this.mpr hcon] at hget
            cases hget
          simpa using hin
      have hmap : List.map Prod.snd (List.filter (fun e => (mapGet D.files e.1).isNone) S) =
          List.filterMap (some ∘ Prod.snd)
            (List.filter (fun e => (mapGet D.files e.1).isNone) S) := by
        rw [List.filterMap_eq_map]
      rw [hfilter, hmap]
      apply List.filterMap_congr
      intro e he
      have hmem : e ∈ S := (List.mem_filter.mp he).1
      simpa using mapGet_of_mem S hS e.1 e.2 hmem
    rw [h2]
    exact h1
  · intro p
    rw [mem_missingPaths D S iter hS hiter p]
    constructor
    · rintro ⟨k, hget, hnone⟩
      refine ⟨k, ?_, (mapGet_eq_none_iff D.files k).mp hnone, hget⟩
      by_contra hcon
      rw [(mapGet_eq_none_iff S k).mpr hcon] at hget
      cases hget
    · rintro ⟨k, _, hnot, hget⟩
      exact ⟨k, hget, (mapGet_eq_none_iff D.files k).mpr hnot⟩

/-- C1 at a source index of three entries, ranged over out of order, against a
destination index holding one of its hashes. -/
theorem missing_is_source_minus_dest_witness :
    (mapKeys [(1, "a"), (2, "b"), (3, "c")]).Nodup ∧
      [(3, "c"), (1, "a"), (2, "b")].Perm [(1, "a"), (2, "b"), (3, "c")] ∧
      (missingPaths [(3, "c"), (1, "a"), (2, "b")] ⟨[(2, "x"), (7, "y")], 0⟩).Perm
        (((mapKeys [(1, "a"), (2, "b"), (3, "c")]).filter
          (fun h => h ∉ mapKeys [(2, "x"), (7, "y")])).filterMap
            (mapGet [(1, "a"), (2, "b"), (3, "c")])) :=
  ⟨by decide, by decide,
    (missing_is_source_minus_dest [(1, "a"), (2, "b"), (3, "c")] ⟨[(2, "x"), (7, "y")], 0⟩
      [(3, "c"), (1, "a"), (2, "b")] (by decide) (by decide)).1⟩

/-! ## Claims on `buildHashList` -/

/-- C5: a call of `buildHashList` that returns leaves exactly one entry per
distinct hash among the files it read (the keys are distinct, and a hash is a
key exactly when a file read has it), and the path stored for a hash is the
path of the last file read with that hash; two files of identical content share
one entry, which holds the later path. -/
theorem index_keeps_last_path_per_hash (hash : List Nat → Nat)
    (join : String → String → String) (fs : String → Option Node)
    (dirs : List String) (hroots : ∀ root ∈ dirs, (fs root).isSome) :
    ∃ r, buildHashList hash join fs dirs = some r ∧
      (mapKeys r.files).Nodup ∧
      (∀ k, k ∈ mapKeys r.files ↔
        ∃ f ∈ readFiles (allVisited join fs dirs), hash f.2 = k) ∧
      ∀ k p, mapGet r.files k = some p ↔
        ∃ pre data post, readFiles (allVisited join fs dirs) = pre ++ (p, data) :: post ∧
          hash data = k ∧ ∀ g ∈ post, hash g.2 ≠ k := by
  refine ⟨_, buildHashList_of_roots hash join fs dirs hroots, ?_, ?_, ?_⟩
  · exact nodup_indexFiles hash _ [] (by simp [mapKeys])
  · intro k
    show k ∈ mapKeys (indexFiles hash [] (readFiles (allVisited join fs dirs))) ↔ _
    rw [mem_mapKeys_indexFiles]
    simp [mapKeys]
  · intro k p
    show mapGet (indexFiles hash [] (readFiles (allVisited join fs dirs))) k = some p ↔ _
    rw [mapGet_indexFiles, ← lastPath_eq_some_iff]
    cases lastPath hash (readFiles (allVisited join fs dirs)) k <;> simp [mapGet]

/-- C5 on the roots `src/` (two files of the same content, then a third) and
`dst`, with the join of Unix systems: the paths stored are the cleaned ones,
`src/b` and not `src//b`. -/
theorem index_keeps_last_path_per_hash_witness :
    (∀ root ∈ ["src/", "dst"], (sampleFs root).isSome) ∧
      buildHashList sampleHash Join sampleFs ["src/", "dst"] =
        some ⟨[(sampleHash [120], "src/b"), (sampleHash [121], "dst/k")], 4⟩ ∧
      ∃ r, buildHashList sampleHash Join sampleFs ["src/", "dst"] = some r ∧
        (mapKeys r.files).Nodup ∧
        (∀ k, k ∈ mapKeys r.files ↔
          ∃ f ∈ readFiles (allVisited Join sampleFs ["src/", "dst"]), sampleHash f.2 = k) ∧
        ∀ k p, mapGet r.files k = some p ↔
          ∃ pre data post,
            readFiles (allVisited Join sampleFs ["src/", "dst"]) = pre ++ (p, data) :: post ∧
            sampleHash data = k ∧ ∀ g ∈ post, sampleHash g.2 ≠ k :=
  ⟨by decide, by decide,
    index_keeps_last_path_per_hash sampleHash Join sampleFs ["src/", "dst"] (by decide)⟩

/-- C7: the byte total of the index a call returns is the `int64` sum of the
sizes of the files visited whose metadata was retrieved, which is their exact
sum whenever that fits in an `int64`; the callback adds the size of a file
before it tries to read it, so a file that cannot be opened or read adds its
size and no entry; in a scan without error the total is the sum of the sizes of
all the files under the roots. -/
theorem size_is_sum_of_stat_sizes (hash : List Nat → Nat)
    (join : String → String → String) (fs : String → Option Node)
    (dirs : List String) (hroots : ∀ root ∈ dirs, (fs root).isSome) :
    ∃ r, buildHashList hash join fs dirs = some r ∧
      r.size = wrap64 (statSizes (allVisited join fs dirs)).sum ∧
      (-2 ^ 63 ≤ (statSizes (allVisited join fs dirs)).sum ∧
          (statSizes (allVisited join fs dirs)).sum < 2 ^ 63 →
        r.size = (statSizes (allVisited join fs dirs)).sum) ∧
      (∀ (h : hashList) (p : String) (sz : Int) (c : ReadResult) (e : Option GoError),
        c = .openErr ∨ c = .readErr →
        ∃ err, walk hash h p (some (.file (some sz) c)) e =
          .ret ⟨h.files, add64 h.size sz⟩ (some err)) ∧
      (cleanScan join fs dirs →
        r.size = wrap64 (statSizes (dirs.flatMap (rootTraversal join fs))).sum) := by
  refine ⟨_, buildHashList_of_roots hash join fs dirs hroots, rfl, ?_, ?_, ?_⟩
  · rintro ⟨hlo, hhi⟩
    exact wrap64_of_range _ hlo hhi
  · intro h p sz c e hc
    rcases hc with hc | hc
    · subst hc
      exact ⟨.opening p, rfl⟩
    · subst hc
      exact ⟨.reading p, rfl⟩
  · intro hclean
    show wrap64 _ = _
    rw [allVisited_of_clean join fs dirs hclean]

/-- C7 on the roots `bad` (a file of 5 bytes that cannot be opened, then one of
3 bytes never reached) and `dst` (one file of 1 byte). -/
theorem size_is_sum_of_stat_sizes_witness :
    (∀ root ∈ ["bad", "dst"], (sampleFs root).isSome) ∧
      buildHashList sampleHash Join sampleFs ["bad", "dst"] =
        some ⟨[(sampleHash [121], "dst/k")], 6⟩ ∧
      statSizes (allVisited Join sampleFs ["bad", "dst"]) = [5, 1] ∧
      ∃ r, buildHashList sampleHash Join sampleFs ["bad", "dst"] = some r ∧
        r.size = wrap64 (statSizes (allVisited Join sampleFs ["bad", "dst"])).sum :=
  ⟨by decide, by decide, by decide,
    let ⟨r, hr, hsize, _⟩ :=
      size_is_sum_of_stat_sizes sampleHash Join sampleFs ["bad", "dst"] (by decide)
    ⟨r, hr, hsize⟩⟩

theorem allVisited_append (join : String → String → String)
    (fs : String → Option Node) (A B : List String) :
    allVisited join fs (A ++ B) = allVisited join fs A ++ allVisited join fs B := by
  simp [allVisited, List.flatMap_append]

/-- C6: when `buildHashList` returns on the roots `A` and on the roots `B`, it
returns on `A` followed by `B`, with a map (one entry per key) that sends a
hash to its path in the index of `B` when there is one, to its path in the
index of `A` otherwise, and with the `int64` sum of the two byte totals as byte
total, which is their exact sum whenever that fits in an `int64`. -/
theorem build_append_is_union (hash : List Nat → Nat)
    (join : String → String → String) (fs : String → Option Node)
    (A B : List String) (a b : hashList)
    (hA : buildHashList hash join fs A = some a) (hB : buildHashList hash join fs B = some b) :
    ∃ r, buildHashList hash join fs (A ++ B) = some r ∧
      (mapKeys r.files).Nodup ∧
      (∀ k, mapGet r.files k =
        match mapGet b.files k with
        | some p => some p
        | none => mapGet a.files k) ∧
      r.size = add64 a.size b.size ∧
      (-2 ^ 63 ≤ a.size + b.size ∧ a.size + b.size < 2 ^ 63 → r.size = a.size + b.size) := by
  have hrA := roots_of_buildHashList hash join fs A a hA
  have hrB := roots_of_buildHashList hash join fs B b hB
  have hrAB : ∀ root ∈ A ++ B, (fs root).isSome := fun root hroot =>
    (List.mem_append.mp hroot).elim (hrA root) (hrB root)
  rw [buildHashList_of_roots hash join fs A hrA] at hA
  rw [buildHashList_of_roots hash join fs B hrB] at hB
  cases hA
  cases hB
  have hfiles : indexFiles hash [] (readFiles (allVisited join fs (A ++ B))) =
      indexFiles hash (indexFiles hash [] (readFiles (allVisited join fs A)))
        (readFiles (allVisited join fs B)) := by
    rw [allVisited_append]
    simp [readFiles, indexFiles, List.filterMap_append, List.foldl_append]
  have hsize : wrap64 (statSizes (allVisited join fs (A ++ B))).sum =
      add64 (wrap64 (statSizes (allVisited join fs A)).sum)
        (wrap64 (statSizes (allVisited join fs B)).sum) := by
    rw [allVisited_append]
    have hsum : (statSizes (allVisited join fs A ++ allVisited join fs B)).sum =
        (statSizes (allVisited join fs A)).sum + (statSizes (allVisited join fs B)).sum := by
      simp [statSizes, List.filterMap_append, List.sum_append]
    rw [hsum]
    unfold add64
    rw [wrap64_add_wrap64 (statSizes (allVisited join fs A)).sum,
      add_comm (statSizes (allVisited join fs A)).sum (wrap64 _),
      wrap64_add_wrap64 (statSizes (allVisited join fs B)).sum,
      add_comm (statSizes (allVisited join fs B)).sum]
  refine ⟨_, buildHashList_of_roots hash join fs (A ++ B) hrAB, ?_, ?_, ?_, ?_⟩
  · exact nodup_indexFiles hash _ [] (by simp [mapKeys])
  · intro k
    show mapGet (indexFiles hash [] (readFiles (allVisited join fs (A ++ B)))) k =
      match mapGet (indexFiles hash [] (readFiles (allVisited join fs B))) k with
      | some p => some p
      | none => mapGet (indexFiles hash [] (readFiles (allVisited join fs A))) k
    rw [hfiles, mapGet_indexFiles, mapGet_indexFiles hash (readFiles (allVisited join fs B)) []]
    cases lastPath hash (readFiles (allVisited join fs B)) k <;> simp [mapGet]
  · exact hsize
  · rintro ⟨hlo, hhi⟩
    show wrap64 (statSizes (allVisited join fs (A ++ B))).sum = _
    rw [hsize]
    exact wrap64_of_range _ hlo hhi

/-- C6 on `src` followed by `dst`: the hash of `src/c` and `dst/k` ends with
the path `dst/k`. -/
theorem build_append_is_union_witness :
    buildHashList sampleHash Join sampleFs ["src"] =
        some ⟨[(sampleHash [120], "src/b"), (sampleHash [121], "src/c")], 3⟩ ∧
      buildHashList sampleHash Join sampleFs ["dst"] =
        some ⟨[(sampleHash [121], "dst/k")], 1⟩ ∧
      buildHashList sampleHash Join sampleFs (["src"] ++ ["dst"]) =
        some ⟨[(sampleHash [120], "src/b"), (sampleHash [121], "dst/k")], 4⟩ ∧
      ∃ r, buildHashList sampleHash Join sampleFs (["src"] ++ ["dst"]) = some r ∧
        (mapKeys r.files).Nodup ∧
        (∀ k, mapGet r.files k =
          match mapGet [(sampleHash [121], "dst/k")] k with
          | some p => some p
          | none => mapGet [(sampleHash [120], "src/b"), (sampleHash [121], "src/c")] k) ∧
        r.size = add64 3 1 ∧
        (-2 ^ 63 ≤ (3 : Int) + 1 ∧ (3 : Int) + 1 < 2 ^ 63 → r.size = 3 + 1) :=
  ⟨by decide, by decide, by decide,
    build_append_is_union sampleHash Join sampleFs ["src"] ["dst"]
      ⟨[(sampleHash [120], "src/b"), (sampleHash [121], "src/c")], 3⟩
      ⟨[(sampleHash [121], "dst/k")], 1⟩ (by decide) (by decide)⟩

/-- C10: when the callbacks on the entries `pre` of a root's traversal return
nil and the callback on the next entry `x` returns an error, the walk of that
root ends there with that error: the state is the one the callback on `x`
left, whatever the entries `post` that follow `x`, and the loop of
`buildHashList` walks the remaining roots from that state. -/
theorem walk_error_ends_root (hash : List Nat → Nat)
    (join : String → String → String) (fs : String → Option Node)
    (h h1 h2 : hashList) (root : String) (rest : List String) (d : Node)
    (pre post : List (String × Node)) (x : String × Node) (err : GoError)
    (hroot : fs root = some d) (htrav : traversal join root d = pre ++ x :: post)
    (hpre : walkList hash h pre = .ret h1 none)
    (hx : walk hash h1 x.1 (some x.2) none = .ret h2 (some err)) :
    walkList hash h (pre ++ [x]) = .ret h2 (some err) ∧
      WalkDir hash join fs h root = .ret h2 (some err) ∧
      buildLoop hash join fs h (root :: rest) = buildLoop hash join fs h2 rest := by
  have hfront : walkList hash h (pre ++ [x]) = .ret h2 (some err) := by
    rw [walkList_append, hpre]
    simp [walkList, hx]
  have hwalk : WalkDir hash join fs h root = .ret h2 (some err) := by
    simp only [WalkDir, hroot, walkDir_eq_walkList, htrav]
    rw [walkList_append, hpre]
    simp [walkList, hx]
  exact ⟨hfront, hwalk, by simp [buildLoop, hwalk]⟩

/-- C10 on the root `bad` followed by `dst`: the walk of `bad` ends at `bad/a`,
`bad/b` is not reached and `dst` is walked from the state left. -/
theorem walk_error_ends_root_witness :
    WalkDir sampleHash Join sampleFs ⟨[], 0⟩ "bad" =
        .ret ⟨[], 5⟩ (some (.opening "bad/a")) ∧
      buildLoop sampleHash Join sampleFs ⟨[], 0⟩ ("bad" :: ["dst"]) =
        buildLoop sampleHash Join sampleFs ⟨[], 5⟩ ["dst"] ∧
      buildHashList sampleHash Join sampleFs ["bad", "dst"] =
        some ⟨[(sampleHash [121], "dst/k")], 6⟩ :=
  ⟨(walk_error_ends_root sampleHash Join sampleFs ⟨[], 0⟩ ⟨[], 0⟩ ⟨[], 5⟩ "bad"
      ["dst"]
      (.dir false
        (.cons "a" (.file (some 5) .openErr)
          (.cons "b" (.file (some 3) (.ok [1, 2, 3])) .nil)))
      [("bad", .dir false
        (.cons "a" (.file (some 5) .openErr)
          (.cons "b" (.file (some 3) (.ok [1, 2, 3])) .nil)))]
      [("bad/b", .file (some 3) (.ok [1, 2, 3]))]
      ("bad/a", .file (some 5) .openErr) (.opening "bad/a") rfl rfl rfl rfl).2.1,
    (walk_error_ends_root sampleHash Join sampleFs ⟨[], 0⟩ ⟨[], 0⟩ ⟨[], 5⟩ "bad" ["dst"]
      (.dir false
        (.cons "a" (.file (some 5) .openErr)
          (.cons "b" (.file (some 3) (.ok [1, 2, 3])) .nil)))
      [("bad", .dir false
        (.cons "a" (.file (some 5) .openErr)
          (.cons "b" (.file (some 3) (.ok [1, 2, 3])) .nil)))]
      [("bad/b", .file (some 3) (.ok [1, 2, 3]))]
      ("bad/a", .file (some 5) .openErr) (.opening "bad/a") rfl rfl rfl rfl).2.2,
    by decide⟩

/-- C3, as claimed, fails: under the root `bad` the file `bad/a` cannot be opened
and the readable file `bad/b` comes after it; whatever the hash, the index
returned for `bad` is empty, so `bad/b` is not in it. -/
theorem file_after_failure_not_indexed :
    rootTraversal Join sampleFs "bad" =
        [("bad", .dir false
            (.cons "a" (.file (some 5) .openErr)
              (.cons "b" (.file (some 3) (.ok [1, 2, 3])) .nil))),
          ("bad/a", .file (some 5) .openErr),
          ("bad/b", .file (some 3) (.ok [1, 2, 3]))] ∧
      ∀ hash : List Nat → Nat, buildHashList hash Join sampleFs ["bad"] = some ⟨[], 5⟩ :=
  ⟨rfl, fun _ => rfl⟩

/-- C3, amended: a call of `buildHashList` on roots that can be stat'd returns,
and a hash is a key of the returned index exactly when it is the hash of a
readable file of one of the roots that no failing entry precedes in the
traversal of that root.  So a file that cannot be stat'd, opened or read takes
with it the entries of its root that come after it, and nothing else: the
readable files before it, and those of the other roots, are in the index. -/
theorem index_holds_files_before_failure (hash : List Nat → Nat)
    (join : String → String → String)
    (fs : String → Option Node) (dirs : List String)
    (hroots : ∀ root ∈ dirs, (fs root).isSome) :
    ∃ r, buildHashList hash join fs dirs = some r ∧
      ∀ k, k ∈ mapKeys r.files ↔
        ∃ root ∈ dirs, ∃ pre p sz data post,
          rootTraversal join fs root = pre ++ (p, Node.file (some sz) (.ok data)) :: post ∧
          (∀ y ∈ pre, failing y.2 = false) ∧ hash data = k := by
  refine ⟨_, buildHashList_of_roots hash join fs dirs hroots, ?_⟩
  intro k
  show k ∈ mapKeys (indexFiles hash [] (readFiles (allVisited join fs dirs))) ↔ _
  rw [mem_mapKeys_indexFiles]
  constructor
  · rintro (hnil | ⟨⟨p, data⟩, hmem, hk⟩)
    · simp [mapKeys] at hnil
    · obtain ⟨sz, hvis⟩ := (mem_readFiles_iff _ p data).mp hmem
      unfold allVisited at hvis
      obtain ⟨root, hroot, hin⟩ := List.mem_flatMap.mp hvis
      obtain ⟨pre, post, heq, hpre⟩ := (mem_visited_iff _ _).mp hin
      exact ⟨root, hroot, pre, p, sz, data, post, heq, hpre, hk⟩
  · rintro ⟨root, hroot, pre, p, sz, data, post, heq, hpre, hk⟩
    refine Or.inr ⟨(p, data), ?_, hk⟩
    refine (mem_readFiles_iff _ p data).mpr ⟨sz, ?_⟩
    unfold allVisited
    exact List.mem_flatMap.mpr
      ⟨root, hroot, (mem_visited_iff _ _).mpr ⟨pre, post, heq, hpre⟩⟩

/-- C3, amended, on the roots `bad` and `dst`: only the hash of `dst/k` is a
key. -/
theorem index_holds_files_before_failure_witness :
    (∀ root ∈ ["bad", "dst"], (sampleFs root).isSome) ∧
      buildHashList sampleHash Join sampleFs ["bad", "dst"] =
        some ⟨[(sampleHash [121], "dst/k")], 6⟩ ∧
      ∃ r, buildHashList sampleHash Join sampleFs ["bad", "dst"] = some r ∧
        ∀ k, k ∈ mapKeys r.files ↔
          ∃ root ∈ ["bad", "dst"], ∃ pre p sz data post,
            rootTraversal Join sampleFs root =
              pre ++ (p, Node.file (some sz) (.ok data)) :: post ∧
            (∀ y ∈ pre, failing y.2 = false) ∧ sampleHash data = k :=
  ⟨by decide, by decide,
    index_holds_files_before_failure sampleHash Join sampleFs ["bad", "dst"] (by decide)⟩

/-- C4, as the code runs: when a root of the list cannot be stat'd, `WalkDir`
calls the callback with a nil entry, `d.IsDir()` dereferences it and
`buildHashList` panics, whatever the other roots. -/
theorem missing_root_panics (hash : List Nat → Nat)
    (join : String → String → String) (fs : String → Option Node)
    (dirs : List String) (hmissing : ∃ root ∈ dirs, fs root = none) :
    buildHashList hash join fs dirs = none := by
  obtain ⟨root, hroot, hnone⟩ := hmissing
  rw [buildHashList_eq]
  have hall : ¬ dirs.all (fun root => (fs root).isSome) = true := by
    intro hall
    have := List.all_eq_true.mp hall root hroot
    simp [hnone] at this
  rw [if_neg hall]

/-- C4 on the roots `nope`, which does not exist, and `dst`. -/
theorem missing_root_panics_witness :
    (∃ root ∈ ["nope", "dst"], sampleFs root = none) ∧
      WalkDir sampleHash Join sampleFs ⟨[], 0⟩ "nope" = .panic ∧
      buildHashList sampleHash Join sampleFs ["nope", "dst"] = none :=
  ⟨⟨"nope", by decide, rfl⟩, by decide,
    missing_root_panics sampleHash Join sampleFs ["nope", "dst"] ⟨"nope", by decide, rfl⟩⟩

/-! ## Claims on the run of `main` -/

/-- C2, as claimed, fails: `src/a` is a file of the source, scanned without
error, no file of the destination has its content, and, whatever the hash,
`src/a` is not in the missing list (its duplicate `src/b` took its entry).
With a hash that sends every content to 0 no source file is listed at all,
though only the content of `src/c` has a copy in the destination. -/
theorem duplicated_source_file_not_listed :
    cleanScan Join sampleFs ["src"] ∧ cleanScan Join sampleFs ["dst"] ∧
      ("src/a", [120]) ∈ treeFiles Join sampleFs ["src"] ∧
      (∀ f ∈ treeFiles Join sampleFs ["dst"], f.2 ≠ [120]) ∧
      (∀ hash : List Nat → Nat, ∃ missing,
        mainMissing hash Join sampleFs id "src" ["dst"] = some missing ∧ "src/a" ∉ missing) ∧
      mainMissing (fun _ => 0) Join sampleFs id "src" ["dst"] = some [] := by
  refine ⟨by unfold cleanScan; decide, by unfold cleanScan; decide, by decide, by decide, ?_,
    by decide⟩
  intro hash
  have ha : Join "src" "a" = "src/a" := by decide
  have hb : Join "src" "b" = "src/b" := by decide
  have hc : Join "src" "c" = "src/c" := by decide
  have hk : Join "dst" "k" = "dst/k" := by decide
  by_cases hcol : hash [120] = hash [121]
  · refine ⟨[], ?_, by simp⟩
    simp [mainMissing, buildHashList, buildLoop, WalkDir, sampleFs, walkDir, walkEntries, walk,
      addFile, mapSet, missingPaths, mapGet, ha, hb, hc, hk, hcol]
  · refine ⟨["src/b"], ?_, by decide⟩
    have hcol' : ¬ hash [121] = hash [120] := fun h => hcol h.symm
    simp [mainMissing, buildHashList, buildLoop, WalkDir, sampleFs, walkDir, walkEntries, walk,
      addFile, mapSet, missingPaths, mapGet, ha, hb, hc, hk, hcol, hcol']

theorem snd_unique_of_nodup_fst (l : List (String × List Nat))
    (hnd : (l.map Prod.fst).Nodup) (a : String) (b b' : List Nat)
    (h1 : (a, b) ∈ l) (h2 : (a, b') ∈ l) : b = b' := by
  induction l with
  | nil => simp at h1
  | cons x l ih =>
    have hnd' : x.1 ∉ l.map Prod.fst ∧ (l.map Prod.fst).Nodup := by
      simpa using hnd
    have hfst : ∀ c, (a, c) ∈ l → a ∈ l.map Prod.fst :=
      fun c hc => List.mem_map.mpr ⟨(a, c), hc, rfl⟩
    rcases List.mem_cons.mp h1 with e1 | t1
    · rcases List.mem_cons.mp h2 with e2 | t2
      · rw [← e2] at e1
        exact (Prod.mk.inj e1).2
      · exact absurd (hfst b' t2) (by rw [← e1] at hnd'; exact hnd'.1)
    · rcases List.mem_cons.mp h2 with e2 | t2
      · exact absurd (hfst b t1) (by rw [← e2] at hnd'; exact hnd'.1)
      · exact ih hnd'.2 t1 t2

/-- C2, amended: in a run whose scans meet no I/O error, a path is in the
missing list exactly when it is the path of a source file that is the last, in
traversal order, of the source files with its content hash, and no file under
any destination root has that content hash.  Files of identical bytes have the
same hash, so, the paths of the source files being distinct, a source file
with a byte-identical copy under a destination root is never listed. -/
theorem missing_iff_last_and_unmatched (hash : List Nat → Nat)
    (join : String → String → String) (fs : String → Option Node)
    (range : List (Nat × String) → List (Nat × String))
    (source : String) (dests : List String)
    (hsrc : cleanScan join fs [source]) (hdst : cleanScan join fs dests)
    (hrange : ∀ m, (range m).Perm m) :
    ∃ missing, mainMissing hash join fs range source dests = some missing ∧
      (∀ p, p ∈ missing ↔
        ∃ pre data post, treeFiles join fs [source] = pre ++ (p, data) :: post ∧
          (∀ g ∈ post, hash g.2 ≠ hash data) ∧
          ∀ f ∈ treeFiles join fs dests, hash f.2 ≠ hash data) ∧
      (((treeFiles join fs [source]).map Prod.fst).Nodup →
        ∀ p data, (p, data) ∈ treeFiles join fs [source] →
          (∃ f ∈ treeFiles join fs dests, f.2 = data) → p ∉ missing) := by
  have hS := buildHashList_of_roots hash join fs [source] (roots_of_clean join fs [source] hsrc)
  have hD := buildHashList_of_roots hash join fs dests (roots_of_clean join fs dests hdst)
  rw [allVisited_of_clean join fs [source] hsrc] at hS
  rw [allVisited_of_clean join fs dests hdst] at hD
  have hmain : mainMissing hash join fs range source dests =
      some (missingPaths (range (indexFiles hash [] (treeFiles join fs [source])))
        ⟨indexFiles hash [] (treeFiles join fs dests),
          wrap64 (statSizes (dests.flatMap (rootTraversal join fs))).sum⟩) := by
    simp only [mainMissing, hS, hD]
    rfl
  have hnodup : (mapKeys (indexFiles hash [] (treeFiles join fs [source]))).Nodup :=
    nodup_indexFiles hash _ [] (by simp [mapKeys])
  have hget : ∀ k p, mapGet (indexFiles hash [] (treeFiles join fs [source])) k = some p ↔
      ∃ pre data post, treeFiles join fs [source] = pre ++ (p, data) :: post ∧
        hash data = k ∧ ∀ g ∈ post, hash g.2 ≠ k := by
    intro k p
    rw [mapGet_indexFiles, ← lastPath_eq_some_iff]
    cases lastPath hash (treeFiles join fs [source]) k <;> simp [mapGet]
  have hnone : ∀ k, mapGet (indexFiles hash [] (treeFiles join fs dests)) k = none ↔
      ∀ f ∈ treeFiles join fs dests, hash f.2 ≠ k := by
    intro k
    rw [mapGet_eq_none_iff, mem_mapKeys_indexFiles]
    simp [mapKeys]
  have hiff : ∀ p,
      p ∈ missingPaths (range (indexFiles hash [] (treeFiles join fs [source])))
          ⟨indexFiles hash [] (treeFiles join fs dests),
            wrap64 (statSizes (dests.flatMap (rootTraversal join fs))).sum⟩ ↔
        ∃ pre data post, treeFiles join fs [source] = pre ++ (p, data) :: post ∧
          (∀ g ∈ post, hash g.2 ≠ hash data) ∧
          ∀ f ∈ treeFiles join fs dests, hash f.2 ≠ hash data := by
    intro p
    rw [mem_missingPaths _ (indexFiles hash [] (treeFiles join fs [source])) _ hnodup (hrange _) p]
    show (∃ k, mapGet (indexFiles hash [] (treeFiles join fs [source])) k = some p ∧
        mapGet (indexFiles hash [] (treeFiles join fs dests)) k = none) ↔ _
    constructor
    · rintro ⟨k, hk, hk'⟩
      obtain ⟨pre, data, post, heq, hdata, hpost⟩ := (hget k p).mp hk
      subst hdata
      exact ⟨pre, data, post, heq, hpost, (hnone _).mp hk'⟩
    · rintro ⟨pre, data, post, heq, hpost, hdest⟩
      exact ⟨hash data, (hget _ p).mpr ⟨pre, data, post, heq, rfl, hpost⟩,
        (hnone _).mpr hdest⟩
  refine ⟨_, hmain, hiff, ?_⟩
  rintro hpaths p data hmem ⟨f, hf, hfd⟩ hp
  obtain ⟨pre, data', post, heq, _, hdest⟩ := (hiff p).mp hp
  have hmem' : (p, data') ∈ treeFiles join fs [source] := by
    rw [heq]
    simp
  have hsame : data = data' := snd_unique_of_nodup_fst _ hpaths p data data' hmem hmem'
  exact hdest f hf (by rw [hfd, hsame])

/-- C2, amended, on the source `src/` and the destination `dst`, with the join
of Unix systems and the map ranged over in reverse: the missing list is the
cleaned path `src/b`. -/
theorem missing_iff_last_and_unmatched_witness :
    cleanScan Join sampleFs ["src/"] ∧ cleanScan Join sampleFs ["dst"] ∧
      mainMissing sampleHash Join sampleFs List.reverse "src/" ["dst"] = some ["src/b"] ∧
      ∃ missing,
        mainMissing sampleHash Join sampleFs List.reverse "src/" ["dst"] = some missing ∧
        ∀ p, p ∈ missing ↔
          ∃ pre data post, treeFiles Join sampleFs ["src/"] = pre ++ (p, data) :: post ∧
            (∀ g ∈ post, sampleHash g.2 ≠ sampleHash data) ∧
            ∀ f ∈ treeFiles Join sampleFs ["dst"], sampleHash f.2 ≠ sampleHash data :=
  ⟨by unfold cleanScan; decide, by unfold cleanScan; decide, by decide,
    let ⟨missing, hrun, hiff, _⟩ :=
      missing_iff_last_and_unmatched sampleHash Join sampleFs List.reverse "src/" ["dst"]
        (by unfold cleanScan; decide) (by unfold cleanScan; decide)
        (fun m => List.reverse_perm m)
    ⟨missing, hrun, hiff⟩⟩

/-! ## Claims on `fileSize` -/

theorem Sprintf_unit (v : ℚ) (l : String) :
    Sprintf "%0.2f %s" [.float v, .str l] =
      [.formatted ⟨['0'], none, some 2⟩ 'f' (.float v), .text " ",
        .formatted ⟨[], none, none⟩ 's' (.str l)] := rfl

theorem Sprintf_fallback (s : ℚ) :
    Sprintf "%0.0 B" [.float s] = [.badVerb ' ' (.float s), .text "B"] := rfl

theorem fileSize_of_no_threshold (order : List (ℚ × String)) (s : ℚ)
    (hs : ∀ e ∈ order, ¬ s > e.1) :
    fileSize order s = [.badVerb ' ' (.float s), .text "B"] := by
  induction order with
  | nil => simp [fileSize, Sprintf_fallback]
  | cons e order ih =>
    obtain ⟨n, l⟩ := e
    have hn : ¬ s > n := hs (n, l) (List.mem_cons_self _ _)
    simp only [fileSize, hn, if_false]
    exact ih (fun e he => hs e (List.mem_cons_of_mem _ he))

/-- C8, as the code runs: the unit depends on the order in which the runtime
ranges over `sizeNames`.  For 2 MiB the order of the source text gives the
value 2 in MiB, and the reverse order, as good an iteration order, gives the
value 2048 in KiB, which is not the largest unit whose threshold 2 MiB
exceeds. -/
theorem fileSize_unit_depends_on_order :
    sizeNames.reverse.Perm sizeNames ∧
      fileSize sizeNames 2097152 =
        [.formatted ⟨['0'], none, some 2⟩ 'f' (.float 2), .text " ",
          .formatted ⟨[], none, none⟩ 's' (.str "MiB")] ∧
      fileSize sizeNames.reverse 2097152 =
        [.formatted ⟨['0'], none, some 2⟩ 'f' (.float 2048), .text " ",
          .formatted ⟨[], none, none⟩ 's' (.str "KiB")] := by
  refine ⟨List.reverse_perm _, ?_, ?_⟩
  · simp only [fileSize, sizeNames, Sprintf_unit]
    norm_num
  · simp only [fileSize, sizeNames, Sprintf_unit, List.reverse_cons, List.reverse_nil,
      List.nil_append, List.cons_append]
    norm_num

/-- C9, as the code runs: for a size that exceeds no threshold, whatever the
order of iteration, `fileSize` returns the output of the format `"%0.0 B"`,
which has no verb letter: the space is taken as the verb, a `float64` rejects
it, and the result is the text `%! (float64=..)` followed by `B`, not the
number of bytes followed by ` B`. -/
theorem fileSize_fallback_is_bad_verb (order : List (ℚ × String)) (s : ℚ)
    (horder : order.Perm sizeNames) (hs : s ≤ 1024) :
    fileSize order s = [.badVerb ' ' (.float s), .text "B"] := by
  apply fileSize_of_no_threshold
  intro e he
  have hmem : e ∈ sizeNames := horder.mem_iff.mp he
  simp only [sizeNames, List.mem_cons, List.mem_singleton, List.not_mem_nil, or_false] at hmem
  rcases hmem with h | h | h | h <;> subst h <;> simp only [gt_iff_lt, not_lt] <;> linarith

/-- C9 at 512 bytes, the table ranged over in reverse. -/
theorem fileSize_fallback_is_bad_verb_witness :
    sizeNames.reverse.Perm sizeNames ∧ (512 : ℚ) ≤ 1024 ∧
      fileSize sizeNames.reverse 512 = [.badVerb ' ' (.float 512), .text "B"] :=
  ⟨List.reverse_perm _, by norm_num,
    fileSize_fallback_is_bad_verb sizeNames.reverse 512 (List.reverse_perm _) (by norm_num)⟩

end FindMissing
